import Mathlib

/-!
Verification development for the Vastr Fashion Intelligence Platform
hybrid-search and image-search backends.

The definitions below are a shallow embedding of `backend/hybrid_search.py`
and `backend/image_search.py`.  Pure Python functions become Lean functions;
floating-point scores produced by the external numeric libraries (rank_bm25,
scikit-learn) are modelled as exact rationals, and the library scoring
routines themselves are abstracted as score oracles, since every claim under
study is independent of the concrete score values the libraries emit.
-/

namespace Vastr

/-! ## Text normalizer (`VastrHybridSearch._preprocess_text`) -/

/-- Whitespace test used by the Python regex class `\s` and by `str.split()`:
the ASCII whitespace characters together with the Unicode whitespace
codepoints Python recognises. -/
def pyIsSpace (c : Char) : Bool :=
  c.toNat = 32 || (9 ≤ c.toNat && c.toNat ≤ 13) || (28 ≤ c.toNat && c.toNat ≤ 31) ||
  c.toNat = 133 || c.toNat = 160 || c.toNat = 5760 ||
  (8192 ≤ c.toNat && c.toNat ≤ 8202) || c.toNat = 8232 || c.toNat = 8233 ||
  c.toNat = 8239 || c.toNat = 8287 || c.toNat = 12288

/-- Lowercasing of a single character, modelling `str.lower()` on the ASCII
range (the only range the normalizer keeps: every non-ASCII character is
replaced by a space by the substitution step below). -/
def pyLower (c : Char) : Char :=
  if 65 ≤ c.toNat && c.toNat ≤ 90 then Char.ofNat (c.toNat + 32) else c

/-- Membership in the character class kept by the substitution
`re.sub` with pattern "not a lowercase letter, digit, whitespace, or
apostrophe (codepoint 39)" in `_preprocess_text`. -/
def keptChar (c : Char) : Bool :=
  (97 ≤ c.toNat && c.toNat ≤ 122) || (48 ≤ c.toNat && c.toNat ≤ 57) ||
  pyIsSpace c || c.toNat = 39

/-- One character of the substitution step: characters outside the kept
class are replaced by a single space. -/
def subChar (c : Char) : Char :=
  if keptChar c then c else ' '

/-- Splitting a character list into (possibly empty) tokens at whitespace:
a whitespace character opens a fresh token boundary, any other character is
prepended to the current token. -/
def tokens : List Char → List (List Char)
  | [] => []
  | c :: cs =>
    if pyIsSpace c then [] :: tokens cs
    else
      match tokens cs with
      | [] => [[c]]
      | t :: ts => (c :: t) :: ts

/-- The words of a character list, as produced by Python `str.split()`:
whitespace-delimited maximal runs of non-whitespace characters, with empty
runs discarded. -/
def wordsOf (l : List Char) : List (List Char) :=
  (tokens l).filter (fun w => !w.isEmpty)

/-- Joining words with single spaces, as in `" ".join(words)`. -/
def joinWords : List (List Char) → List Char
  | [] => []
  | [w] => w
  | w :: v :: ws => w ++ ' ' :: joinWords (v :: ws)

/-- The character-list core of `_preprocess_text`: lowercase, substitute
non-kept characters with spaces, split on whitespace, re-join with single
spaces. -/
def normalizeChars (l : List Char) : List Char :=
  joinWords (wordsOf ((l.map pyLower).map subChar))

/-- Embedding of `VastrHybridSearch._preprocess_text` from
`backend/hybrid_search.py` lines 50-64: empty (or, in Python, null) input
returns the empty string; otherwise lowercase, replace every character that
is not a lowercase letter, digit, whitespace or apostrophe by a space, and
collapse runs of whitespace via split plus single-space join. -/
def preprocess_text (s : String) : String :=
  if s = "" then "" else String.mk (normalizeChars s.data)

/-- Python `str.split()` on a string, returning the whitespace-delimited
words; used for `self._preprocess_text(query).split()` in `_bm25_search`. -/
def strTokens (s : String) : List String :=
  (wordsOf s.data).map String.mk

/-! ## Query expander (`VastrHybridSearch._expand_query`) -/

/-- Lowercasing a whole string (`query.lower()` in `_expand_query`). -/
def pyStrLower (s : String) : String :=
  String.mk (s.data.map pyLower)

/-- Python substring containment `w in s` for strings. -/
def containsSub (s w : String) : Bool :=
  decide (w.data <:+: s.data)

/-- The `style_expansions` table of `_expand_query`. -/
def style_expansions : List (String × List String) :=
  [("aesthetic", ["trendy", "stylish", "fashionable", "modern", "chic"]),
   ("cute", ["pretty", "beautiful", "lovely", "adorable", "elegant"]),
   ("korean", ["kpop", "asian", "trendy", "oversized", "modern"]),
   ("casual", ["everyday", "comfortable", "relaxed", "informal"]),
   ("formal", ["professional", "office", "business", "elegant", "sophisticated"]),
   ("vintage", ["retro", "classic", "traditional", "old"]),
   ("boho", ["bohemian", "hippie", "flowy", "ethnic"]),
   ("minimal", ["minimalist", "simple", "basic", "plain", "clean"]),
   ("luxury", ["premium", "designer", "high-end", "expensive", "exclusive"])]

/-- The `occasion_expansions` table of `_expand_query`. -/
def occasion_expansions : List (String × List String) :=
  [("interview", ["formal", "professional", "office", "business", "corporate"]),
   ("wedding", ["bridal", "party", "formal", "festive", "celebration"]),
   ("party", ["evening", "festive", "celebration", "occasion", "special"]),
   ("casual", ["everyday", "daily", "comfort", "relaxed"]),
   ("beach", ["summer", "vacation", "resort", "light", "breezy"]),
   ("eid", ["festive", "celebration", "traditional", "special"])]

/-- The `color_expansions` table of `_expand_query`. -/
def color_expansions : List (String × List String) :=
  [("black", ["dark", "charcoal", "noir"]),
   ("white", ["cream", "ivory", "off-white", "pearl"]),
   ("red", ["maroon", "crimson", "scarlet", "ruby"]),
   ("blue", ["navy", "indigo", "azure", "cobalt"]),
   ("green", ["olive", "emerald", "mint", "sage"]),
   ("pink", ["rose", "blush", "coral", "salmon"])]

/-- The `pattern_expansions` table of `_expand_query`. -/
def pattern_expansions : List (String × List String) :=
  [("floral", ["flower", "botanical", "garden", "bloom", "printed"]),
   ("striped", ["stripe", "lines", "linear"]),
   ("polka", ["dots", "dotted", "spotted"]),
   ("embroidered", ["embroidery", "threadwork", "hand-work", "detailed"])]

/-- Inserting one key/value pair into an association list with Python dict
semantics: an existing key has its value replaced in place, a new key is
appended at the end. -/
def dictInsert (m : List (String × List String)) (kv : String × List String) :
    List (String × List String) :=
  if m.any (fun p => p.1 = kv.1) then
    m.map (fun p => if p.1 = kv.1 then (p.1, kv.2) else p)
  else m ++ [kv]

/-- Python dict-merge of two tables (the double-star unpacking merge) on
association lists: keys keep the position of their first insertion, values
come from the latest assignment. -/
def dictMerge (m₁ m₂ : List (String × List String)) : List (String × List String) :=
  m₂.foldl dictInsert m₁

/-- The merged iteration table of `_expand_query`: the dict-merge of the
style, occasion, color and pattern tables, in that order, whose items the
expansion loop iterates.  The trigger `casual` occurs in both the style and
the occasion table, so the merged dict keeps its style-table position with
the occasion-table synonym list. -/
def mergedExpansions : List (String × List String) :=
  dictMerge (dictMerge (dictMerge style_expansions occasion_expansions)
    color_expansions) pattern_expansions

/-- Embedding of `VastrHybridSearch._expand_query` from
`backend/hybrid_search.py` lines 66-122: start the accumulator with the raw
query; for each trigger word of the merged table whose text occurs as a
substring of the lowercased query, append the first 3 synonyms of its list;
return the space-joined accumulator. -/
def expand_query (query : String) : String :=
  " ".intercalate
    (mergedExpansions.foldl
      (fun acc p => if containsSub (pyStrLower query) p.1 then acc ++ p.2.take 3 else acc)
      [query])

/-! ## Data model -/

/-- The fields of a catalog product record consulted by the search engine.
Missing MongoDB document fields are `none`; `tags` is modelled in its list
form. -/
structure Product where
  product_id : Option String := none
  title : Option String := none
  brand_name : Option String := none
  brand_id : Option String := none
  product_type : Option String := none
  vendor : Option String := none
  tags : List String := []
  description : Option String := none
  price_min : Option ℚ := none
  price_max : Option ℚ := none
  available : Option Bool := none
deriving DecidableEq

/-- The optional filters dict accepted by `hybrid_search`; a `none` field is
an absent key. -/
structure Filters where
  brand_id : Option String := none
  min_price : Option ℚ := none
  max_price : Option ℚ := none
  product_type : Option String := none
  available_only : Option Bool := none
deriving DecidableEq

/-- Embedding of `VastrHybridSearch._apply_filters` from
`backend/hybrid_search.py` lines 300-329, with the same sequence of
early-return rejection tests.  `product.get("price_min", 0)` is
`price_min.getD 0`; `product.get("price_min", float("inf"))` compared with a
finite bound `m` makes the missing-field comparison `inf > m` true, which the
`none` branch of the max-price test returns directly. -/
def apply_filters (product : Product) (filters : Filters) : Bool :=
  let brandReject : Bool :=
    match filters.brand_id with
    | some b => decide (product.brand_id ≠ some b)
    | none => false
  let minReject : Bool :=
    match filters.min_price with
    | some m => decide (product.price_min.getD 0 < m)
    | none => false
  let maxReject : Bool :=
    match filters.max_price with
    | some m =>
      match product.price_min with
      | some v => decide (m < v)
      | none => true
    | none => false
  let typeReject : Bool :=
    match filters.product_type with
    | some t => decide (product.product_type ≠ some t)
    | none => false
  let availReject : Bool :=
    match filters.available_only with
    | some true => decide (product.available.getD false = false)
    | _ => false
  if brandReject then false
  else if minReject then false
  else if maxReject then false
  else if typeReject then false
  else if availReject then false
  else true

/-! ## Candidate generation and score fusion (`hybrid_search`) -/

/-- Stable insertion of a scored pair into a list sorted by score
descending; ties keep the existing element first. -/
def insertDesc (p : ℕ × ℚ) : List (ℕ × ℚ) → List (ℕ × ℚ)
  | [] => [p]
  | q :: qs => if q.2 < p.2 then p :: q :: qs else q :: insertDesc p qs

/-- Sorting scored pairs by score descending.  Models
`np.argsort(scores)[::-1]` and `sorted(..., key=score, reverse=True)`; the
source leaves the relative order of equal scores unspecified (numpy argsort
is an unstable quicksort), and no claim under study depends on tie order. -/
def sortByScoreDesc : List (ℕ × ℚ) → List (ℕ × ℚ)
  | [] => []
  | p :: ps => insertDesc p (sortByScoreDesc ps)

/-- Candidate generation shared by `_bm25_search` and `_cosine_search`
(`backend/hybrid_search.py` lines 193-222): score every product position,
keep the `top_k` highest-scoring positions, and drop non-positive scores.
The numeric scoring itself (rank_bm25 / scikit-learn) is supplied as the
function `scores`. -/
def topKPositive (scores : ℕ → ℚ) (n k : ℕ) : List (ℕ × ℚ) :=
  (((sortByScoreDesc ((List.range n).map (fun i => (i, scores i)))).take k).filter
    (fun p => decide (0 < p.2)))

/-- Python `max(score for _, score in results)` over a nonempty list. -/
def maxScore : List (ℕ × ℚ) → ℚ
  | [] => 0
  | p :: ps => ps.foldl (fun m q => max m q.2) p.2

/-- Embedding of the inner `normalize_scores` of `hybrid_search`
(`backend/hybrid_search.py` lines 252-258): an empty result list, or one
whose maximum score is zero, yields the empty map; otherwise every score is
divided by the maximum score of the same result set. -/
def normalize_scores (results : List (ℕ × ℚ)) : List (ℕ × ℚ) :=
  match results with
  | [] => []
  | p :: ps =>
    if maxScore (p :: ps) = 0 then []
    else (p :: ps).map (fun q => (q.1, q.2 / maxScore (p :: ps)))

/-- Python dict lookup `d.get(idx, 0)` on a score map. -/
def lookupScore (m : List (ℕ × ℚ)) (i : ℕ) : ℚ :=
  (m.lookup i).getD 0

/-- The union `set(bm25_normalized) | set(cosine_normalized)` of candidate
positions, in one concrete order (Python set iteration order is
unspecified; no claim under study depends on it). -/
def unionIndices (b c : List (ℕ × ℚ)) : List ℕ :=
  b.map Prod.fst ++ (c.map Prod.fst).filter (fun i => !(b.map Prod.fst).contains i)

/-- The weighted score-combination loop of `hybrid_search`
(`backend/hybrid_search.py` lines 263-273). -/
def fuseScores (bm25_weight cosine_weight : ℚ) (bN cN : List (ℕ × ℚ)) :
    List (ℕ × ℚ) :=
  (unionIndices bN cN).map
    (fun i => (i, bm25_weight * lookupScore bN i + cosine_weight * lookupScore cN i))

/-- A product together with the three scores `hybrid_search` attaches to it
(the dropped MongoDB `_id` is not modelled). -/
structure ScoredProduct where
  product : Product
  search_score : ℚ
  bm25_score : ℚ
  cosine_score : ℚ
deriving DecidableEq

/-- The acceptance test of the result loop: with no filters dict (or an
empty one, which Python treats as falsy and which rejects nothing anyway)
every candidate is accepted, otherwise `_apply_filters` decides. -/
def acceptProduct (products : ℕ → Product) (filters : Option Filters) (i : ℕ) : Bool :=
  match filters with
  | none => true
  | some f => apply_filters (products i) f

/-- The result loop of `hybrid_search` (`backend/hybrid_search.py` lines
278-296): walk `sorted_results[:top_k]`, skip candidates failing the
filters, and attach the fused and per-index normalized scores to the
survivors. -/
def selectResults (products : ℕ → Product) (bN cN : List (ℕ × ℚ))
    (ranking : List (ℕ × ℚ)) (top_k : ℕ) (filters : Option Filters) :
    List ScoredProduct :=
  (ranking.take top_k).filterMap
    (fun p =>
      if acceptProduct products filters p.1 then
        some ⟨products p.1, p.2, lookupScore bN p.1, lookupScore cN p.1⟩
      else none)

/-- The normalized BM25 score map computed by `hybrid_search` for a query:
`_bm25_search` tokenizes the preprocessed query, scores it with the BM25
index (abstracted as the oracle `bm25Oracle`), keeps the top 100 positive
candidates, and `normalize_scores` rescales them. -/
def bm25NormOf (bm25Oracle : List String → ℕ → ℚ) (n : ℕ) (query : String) :
    List (ℕ × ℚ) :=
  normalize_scores (topKPositive (bm25Oracle (strTokens (preprocess_text query))) n 100)

/-- The normalized cosine score map computed by `hybrid_search` for a query:
`_cosine_search` vectorizes the preprocessed query text (the TF-IDF scoring
is abstracted as the oracle `cosOracle`), keeps the top 100 positive
candidates, and `normalize_scores` rescales them. -/
def cosineNormOf (cosOracle : String → ℕ → ℚ) (n : ℕ) (query : String) :
    List (ℕ × ℚ) :=
  normalize_scores (topKPositive (cosOracle (preprocess_text query)) n 100)

/-- The fused, descending-sorted candidate ranking `sorted_results` built by
`hybrid_search` before its result loop. -/
def queryRanking (bm25Oracle : List String → ℕ → ℚ) (cosOracle : String → ℕ → ℚ)
    (n : ℕ) (query : String) (bm25_weight cosine_weight : ℚ) : List (ℕ × ℚ) :=
  sortByScoreDesc
    (fuseScores bm25_weight cosine_weight (bm25NormOf bm25Oracle n query)
      (cosineNormOf cosOracle n query))

/-- Embedding of `VastrHybridSearch.hybrid_search` from
`backend/hybrid_search.py` lines 224-298.  `products` maps a position of
`self.products_list` to its record, `n` is the corpus size, and the two
oracles stand for the numeric scoring of the BM25 and TF-IDF indices. -/
def hybrid_search (products : ℕ → Product) (bm25Oracle : List String → ℕ → ℚ)
    (cosOracle : String → ℕ → ℚ) (n : ℕ) (query : String) (top_k : ℕ)
    (bm25_weight cosine_weight : ℚ) (filters : Option Filters) :
    List ScoredProduct :=
  selectResults products (bm25NormOf bm25Oracle n query) (cosineNormOf cosOracle n query)
    (queryRanking bm25Oracle cosOracle n query bm25_weight cosine_weight) top_k filters

/-- Modelled from the spec: the spec-side hybrid pipeline in which the query
expansion step is wired in before tokenization of both indices ("implementers
should wire it before tokenization for both indices"); the `expander`
argument is applied to the raw query ahead of normalization, so `expander =
expand_query` is the expanded pipeline and the identity expander is the
pipeline run without any query expansion. -/
def hybridSearchWithExpander (expander : String → String) (products : ℕ → Product)
    (bm25Oracle : List String → ℕ → ℚ) (cosOracle : String → ℕ → ℚ) (n : ℕ)
    (query : String) (top_k : ℕ) (bm25_weight cosine_weight : ℚ)
    (filters : Option Filters) : List ScoredProduct :=
  selectResults products (bm25NormOf bm25Oracle n (expander query))
    (cosineNormOf cosOracle n (expander query))
    (queryRanking bm25Oracle cosOracle n (expander query) bm25_weight cosine_weight)
    top_k filters

/-! ## Index construction (`_create_searchable_text`, `_build_search_indices`) -/

/-- Embedding of `VastrHybridSearch._create_searchable_text` from
`backend/hybrid_search.py` lines 124-163: weighted concatenation of title
(x3), product type (x2), brand name, tags, first 200 characters of the
description, and vendor, then preprocessing.  Falsy (missing or empty)
fields contribute nothing, matching the Python truthiness tests. -/
def create_searchable_text (p : Product) : String :=
  let part := fun (o : Option String) (times : ℕ) =>
    match o with
    | some s => if s = "" then [] else List.replicate times s
    | none => []
  let parts :=
    part p.title 3 ++ part p.product_type 2 ++ part p.brand_name 1 ++
    p.tags ++ part (p.description.map (fun d => d.take 200)) 1 ++ part p.vendor 1
  preprocess_text (" ".intercalate parts)

/-- The statistics `BM25Okapi.__init__` derives from a corpus. -/
structure BM25State where
  corpusSize : ℕ
  avgdl : ℚ
deriving DecidableEq

/-- Initialization of the rank_bm25 `BM25Okapi` index over a tokenized
corpus.  Modelled from the library dependency (its source is not part of
this repository): `BM25.__init__` computes
`self.avgdl = num_doc / self.corpus_size`, a Python division that raises
`ZeroDivisionError` when the corpus is empty, and `BM25Okapi._calc_idf`
computes `self.average_idf = idf_sum / len(self.idf)`, which likewise raises
when the corpus has an empty vocabulary. -/
def bm25OkapiInit (corpus : List (List String)) : Except String BM25State :=
  if corpus.length = 0 then
    .error "ZeroDivisionError: division by zero"
  else if (corpus.map List.length).sum = 0 then
    .error "ZeroDivisionError: division by zero"
  else
    .ok ⟨corpus.length, ((corpus.map List.length).sum : ℚ) / (corpus.length : ℚ)⟩

/-- The fitted-vocabulary witness of `TfidfVectorizer.fit_transform`. -/
structure TfidfState where
  docCount : ℕ
deriving DecidableEq

/-- Fitting of the scikit-learn `TfidfVectorizer` over the corpus texts.
Modelled from the library dependency (its source is not part of this
repository): fitting over a document list that yields an empty vocabulary
(in particular an empty document list) raises
`ValueError: empty vocabulary`. -/
def tfidfFit (texts : List String) : Except String TfidfState :=
  if (texts.map (fun t => (strTokens t).length)).sum = 0 then
    .error "ValueError: empty vocabulary"
  else
    .ok ⟨texts.length⟩

/-- Embedding of `VastrHybridSearch._build_search_indices` from
`backend/hybrid_search.py` lines 165-191: build the searchable text of every
product, then construct the BM25 index and the TF-IDF matrix over it, in
that order; an exception from either constructor propagates. -/
def build_search_indices (products_list : List Product) :
    Except String (BM25State × TfidfState) := do
  let texts := products_list.map create_searchable_text
  let bm ← bm25OkapiInit (texts.map strTokens)
  let tf ← tfidfFit texts
  return (bm, tf)

/-! ## Image search (`backend/image_search.py`) -/

/-- The sum of squared entries of an embedding row. -/
def sumSq (r : List ℝ) : ℝ :=
  (r.map (fun x => x ^ 2)).sum

/-- The L2 norm of an embedding row (`np.linalg.norm(row)`). -/
noncomputable def rowNorm (r : List ℝ) : ℝ :=
  Real.sqrt (sumSq r)

/-- One row of the defensive normalization in `load_embeddings`
(`backend/image_search.py` lines 100-103): divide the row by its L2 norm
clipped from below at `1e-10`
(`_EMBEDDINGS / np.clip(norms, a_min=1e-10, a_max=None)`). -/
noncomputable def clipNormalizeRow (r : List ℝ) : List ℝ :=
  r.map (fun x => x / max (rowNorm r) (1e-10 : ℝ))

/-- The load-time normalization applied to the whole concatenated embedding
matrix by `load_embeddings`, row by row. -/
noncomputable def normalizeEmbeddingRows (m : List (List ℝ)) : List (List ℝ) :=
  m.map clipNormalizeRow

/-- The mutable module state of `backend/image_search.py` consulted by the
endpoint: whether the ViT model loaded, and the optional embedding matrix
and product-identifier list (each `none` until its loader succeeds). -/
structure ImageState where
  modelLoaded : Bool
  embeddings : Option (List (List ℚ))
  productIds : Option (List String)

/-- The request body of `POST /api/v1/search/image`. -/
structure ImageSearchRequest where
  image : String
  limit : ℕ := 24

/-- One entry of the endpoint result list. -/
structure ImageResult where
  product_id : String
  similarity : ℚ
deriving DecidableEq

/-- Embedding of `get_embedding_from_base64` from `backend/image_search.py`
lines 161-177: with no loaded model it returns `None`; otherwise the whole
decode-and-embed body runs under a broad `except` returning `None` on any
failure, which the oracle `extract` models (`none` = extraction failed,
`some v` = the extracted embedding vector). -/
def get_embedding_from_base64 (st : ImageState) (extract : String → Option (List ℚ))
    (base64_str : String) : Option (List ℚ) :=
  if st.modelLoaded = false then none else extract base64_str

/-- Embedding of the `search_by_image` endpoint from
`backend/image_search.py` lines 135-148.  The similarity computation of
scikit-learn `cosine_similarity` is abstracted as the oracle `sims` (query
embedding and matrix to one score per row); an `Except` error is the
`HTTPException` status code and detail string. -/
def search_by_image (st : ImageState) (extract : String → Option (List ℚ))
    (sims : List ℚ → List (List ℚ) → List ℚ) (req : ImageSearchRequest) :
    Except (ℕ × String) (List ImageResult) :=
  match st.embeddings, st.productIds with
  | none, _ => .error (503, "Image search not ready - embeddings missing")
  | _, none => .error (503, "Image search not ready - embeddings missing")
  | some matrix, some ids =>
    if matrix.length = 0 then
      .error (503, "Image search not ready - embeddings missing")
    else
      match get_embedding_from_base64 st extract req.image with
      | none => .error (500, "Failed to process image")
      | some emb =>
        let s := sims emb matrix
        let top := (sortByScoreDesc ((List.range s.length).map
          (fun i => (i, s.getD i 0)))).take req.limit
        .ok (top.map (fun p => ⟨ids.getD p.1 "", p.2⟩))

end Vastr

namespace Vastr

/-! ## Lemmas about tokenization and the text normalizer -/

theorem tokens_cons_sp {c : Char} (l : List Char) (h : pyIsSpace c = true) :
    tokens (c :: l) = [] :: tokens l := by
  simp [tokens, h]

theorem tokens_cons_nsp {c : Char} (l : List Char) (h : pyIsSpace c = false) :
    tokens (c :: l) = match tokens l with
      | [] => [[c]]
      | t :: ts => (c :: t) :: ts := by
  simp [tokens, h]

theorem tokens_append_word_nil {w l : List Char} (hw : ∀ c ∈ w, pyIsSpace c = false)
    (hne : w ≠ []) (hl : tokens l = []) : tokens (w ++ l) = [w] := by
  induction w with
  | nil => exact absurd rfl hne
  | cons c w ih =>
    have hc : pyIsSpace c = false := hw c (List.mem_cons_self _ _)
    have hw' : ∀ x ∈ w, pyIsSpace x = false := fun x hx => hw x (List.mem_cons_of_mem _ hx)
    cases w with
    | nil => simp [tokens, hc, hl]
    | cons d w2 =>
      have h2 : tokens (d :: w2 ++ l) = [d :: w2] := ih hw' (by simp)
      rw [List.cons_append, tokens_cons_nsp _ hc, h2]

theorem tokens_append_word_cons {w l t : List Char} {ts : List (List Char)}
    (hw : ∀ c ∈ w, pyIsSpace c = false) (hl : tokens l = t :: ts) :
    tokens (w ++ l) = (w ++ t) :: ts := by
  induction w with
  | nil => simpa using hl
  | cons c w ih =>
    have hc : pyIsSpace c = false := hw c (List.mem_cons_self _ _)
    have hw' : ∀ x ∈ w, pyIsSpace x = false := fun x hx => hw x (List.mem_cons_of_mem _ hx)
    rw [List.cons_append, tokens_cons_nsp _ hc, ih hw']
    rfl

theorem tokens_joinWords (ws : List (List Char))
    (h : ∀ w ∈ ws, w ≠ [] ∧ ∀ c ∈ w, pyIsSpace c = false) :
    tokens (joinWords ws) = ws := by
  induction ws with
  | nil => rfl
  | cons w vs ih =>
    cases vs with
    | nil =>
      have hw := h w (List.mem_cons_self _ _)
      have h1 : tokens (w ++ ([] : List Char)) = [w] :=
        tokens_append_word_nil hw.2 hw.1 rfl
      simpa [joinWords] using h1
    | cons v vs2 =>
      have hw := h w (List.mem_cons_self _ _)
      have ih2 : tokens (joinWords (v :: vs2)) = v :: vs2 :=
        ih (fun x hx => h x (List.mem_cons_of_mem _ hx))
      have hsp : tokens (' ' :: joinWords (v :: vs2)) = [] :: v :: vs2 := by
        rw [tokens_cons_sp _ (by decide), ih2]
      have h1 := tokens_append_word_cons hw.2 hsp
      simpa [joinWords] using h1

theorem wordsOf_joinWords (ws : List (List Char))
    (h : ∀ w ∈ ws, w ≠ [] ∧ ∀ c ∈ w, pyIsSpace c = false) :
    wordsOf (joinWords ws) = ws := by
  unfold wordsOf
  rw [tokens_joinWords ws h]
  apply List.filter_eq_self.mpr
  intro w hw
  simpa [List.isEmpty_iff] using (h w hw).1

theorem tokens_subset {l : List Char} : ∀ w ∈ tokens l, ∀ c ∈ w, c ∈ l := by
  induction l with
  | nil => simp [tokens]
  | cons a l ih =>
    by_cases ha : pyIsSpace a = true
    · rw [tokens_cons_sp _ ha]
      intro w hw c hc
      rcases List.mem_cons.1 hw with rfl | hmem
      · exact absurd hc (List.not_mem_nil c)
      · exact List.mem_cons_of_mem _ (ih w hmem c hc)
    · rw [tokens_cons_nsp _ (by simpa using ha)]
      cases hl : tokens l with
      | nil =>
        intro w hw c hc
        rcases List.mem_cons.1 hw with rfl | hmem
        · rcases List.mem_cons.1 hc with rfl | h0
          · exact List.mem_cons_self _ _
          · exact absurd h0 (List.not_mem_nil c)
        · exact absurd hmem (List.not_mem_nil w)
      | cons t ts =>
        intro w hw c hc
        rcases List.mem_cons.1 hw with rfl | hmem
        · rcases List.mem_cons.1 hc with rfl | hct
          · exact List.mem_cons_self _ _
          · exact List.mem_cons_of_mem _
              (ih t (hl ▸ List.mem_cons_self _ _) c hct)
        · exact List.mem_cons_of_mem _
            (ih w (hl ▸ List.mem_cons_of_mem _ hmem) c hc)

theorem tokens_nosp {l : List Char} : ∀ w ∈ tokens l, ∀ c ∈ w, pyIsSpace c = false := by
  induction l with
  | nil => simp [tokens]
  | cons a l ih =>
    by_cases ha : pyIsSpace a = true
    · rw [tokens_cons_sp _ ha]
      intro w hw c hc
      rcases List.mem_cons.1 hw with rfl | hmem
      · exact absurd hc (List.not_mem_nil c)
      · exact ih w hmem c hc
    · have ha' : pyIsSpace a = false := by simpa using ha
      rw [tokens_cons_nsp _ ha']
      cases hl : tokens l with
      | nil =>
        intro w hw c hc
        rcases List.mem_cons.1 hw with rfl | hmem
        · rcases List.mem_cons.1 hc with rfl | h0
          · exact ha'
          · exact absurd h0 (List.not_mem_nil c)
        · exact absurd hmem (List.not_mem_nil w)
      | cons t ts =>
        intro w hw c hc
        rcases List.mem_cons.1 hw with rfl | hmem
        · rcases List.mem_cons.1 hc with rfl | hct
          · exact ha'
          · exact ih t (hl ▸ List.mem_cons_self _ _) c hct
        · exact ih w (hl ▸ List.mem_cons_of_mem _ hmem) c hc

theorem joinWords_chars {ws : List (List Char)} :
    ∀ c ∈ joinWords ws, c = ' ' ∨ ∃ w ∈ ws, c ∈ w := by
  induction ws with
  | nil => simp [joinWords]
  | cons w vs ih =>
    cases vs with
    | nil =>
      intro c hc
      exact Or.inr ⟨w, List.mem_cons_self _ _, by simpa [joinWords] using hc⟩
    | cons v vs2 =>
      intro c hc
      simp only [joinWords] at hc
      rcases List.mem_append.1 hc with h1 | h2
      · exact Or.inr ⟨w, List.mem_cons_self _ _, h1⟩
      · rcases List.mem_cons.1 h2 with rfl | h3
        · exact Or.inl rfl
        · rcases ih c h3 with h | ⟨u, hu, hcu⟩
          · exact Or.inl h
          · exact Or.inr ⟨u, List.mem_cons_of_mem _ hu, hcu⟩

theorem keptChar_subChar (c : Char) : keptChar (subChar c) = true := by
  unfold subChar
  by_cases h : keptChar c = true
  · simp [h]
  · simp only [h, Bool.false_eq_true, if_false]
    decide

theorem stable_char {c : Char} (hk : keptChar c = true) (hs : pyIsSpace c = false) :
    subChar (pyLower c) = c := by
  have hcls : 97 ≤ c.toNat ∧ c.toNat ≤ 122 ∨ 48 ≤ c.toNat ∧ c.toNat ≤ 57 ∨
      c.toNat = 39 := by
    simp only [keptChar, hs, Bool.or_eq_true, Bool.and_eq_true,
      decide_eq_true_eq, Bool.false_eq_true, or_false] at hk
    tauto
  have hlow : pyLower c = c := by
    unfold pyLower
    have hno : ¬((65 ≤ c.toNat && c.toNat ≤ 90) = true) := by
      simp only [Bool.and_eq_true, decide_eq_true_eq, not_and]
      omega
    rw [if_neg hno]
  rw [hlow]
  unfold subChar
  rw [if_pos hk]

theorem mapped_kept {l : List Char} :
    ∀ c ∈ (l.map pyLower).map subChar, keptChar c = true := by
  intro c hc
  rcases List.mem_map.1 hc with ⟨x, _, rfl⟩
  exact keptChar_subChar x

theorem normalizeChars_idem (l : List Char) :
    normalizeChars (normalizeChars l) = normalizeChars l := by
  unfold normalizeChars
  set M := (l.map pyLower).map subChar with hM
  set ws := wordsOf M with hws
  have hgood : ∀ w ∈ ws, w ≠ [] ∧ ∀ c ∈ w, pyIsSpace c = false := by
    intro w hw
    have hw1 := List.mem_filter.1 hw
    refine ⟨?_, fun c hc => tokens_nosp w hw1.1 c hc⟩
    intro h0
    subst h0
    simp at hw1
  have hkept : ∀ w ∈ ws, ∀ c ∈ w, keptChar c = true := by
    intro w hw c hc
    exact mapped_kept c (tokens_subset w (List.mem_filter.1 hw).1 c hc)
  have hmapfix : ((joinWords ws).map pyLower).map subChar = joinWords ws := by
    rw [List.map_map]
    have hfix : ∀ c ∈ joinWords ws, (subChar ∘ pyLower) c = c := by
      intro c hc
      rcases joinWords_chars c hc with rfl | ⟨w, hw, hcw⟩
      · decide
      · exact stable_char (hkept w hw c hcw) ((hgood w hw).2 c hcw)
    calc (joinWords ws).map (subChar ∘ pyLower)
        = (joinWords ws).map id := List.map_congr_left hfix
      _ = joinWords ws := List.map_id _
  rw [hmapfix, wordsOf_joinWords ws hgood]

end Vastr

namespace Vastr

/-- C9: for every string x (including the empty string and strings with
non-ASCII characters, which the substitution step strips), applying the text
normalizer `_preprocess_text` twice gives the same result as applying it
once — normalization is an idempotent projection — and empty input yields
the empty string (in Python, null input takes the same falsy branch). -/
theorem preprocess_text_idempotent :
    (∀ x : String, preprocess_text (preprocess_text x) = preprocess_text x) ∧
    preprocess_text "" = "" := by
  constructor
  · intro s
    by_cases hs : s = ""
    · subst hs
      rfl
    · have h1 : preprocess_text s = String.mk (normalizeChars s.data) := if_neg hs
      rw [h1]
      by_cases h2 : String.mk (normalizeChars s.data) = ""
      · rw [h2]
        rfl
      · unfold preprocess_text
        rw [if_neg h2]
        show String.mk (normalizeChars (normalizeChars s.data)) = _
        rw [normalizeChars_idem]
  · rfl

end Vastr

namespace Vastr

/-! ## Lemmas about sorting, candidate generation and score fusion -/

theorem insertDesc_perm (p : ℕ × ℚ) (l : List (ℕ × ℚ)) :
    (insertDesc p l).Perm (p :: l) := by
  induction l with
  | nil => exact List.Perm.refl _
  | cons q qs ih =>
    unfold insertDesc
    by_cases h : q.2 < p.2
    · rw [if_pos h]
    · rw [if_neg h]
      exact (ih.cons q).trans (List.Perm.swap p q qs)

theorem sortByScoreDesc_perm (l : List (ℕ × ℚ)) : (sortByScoreDesc l).Perm l := by
  induction l with
  | nil => exact List.Perm.refl _
  | cons p ps ih =>
    exact (insertDesc_perm p (sortByScoreDesc ps)).trans (ih.cons p)

theorem mem_sortByScoreDesc {x : ℕ × ℚ} {l : List (ℕ × ℚ)} :
    x ∈ sortByScoreDesc l ↔ x ∈ l :=
  (sortByScoreDesc_perm l).mem_iff

theorem insertDesc_sorted {p : ℕ × ℚ} {l : List (ℕ × ℚ)}
    (h : l.Pairwise (fun a b => b.2 ≤ a.2)) :
    (insertDesc p l).Pairwise (fun a b => b.2 ≤ a.2) := by
  induction l with
  | nil => simp [insertDesc]
  | cons q qs ih =>
    unfold insertDesc
    by_cases hq : q.2 < p.2
    · rw [if_pos hq]
      refine List.pairwise_cons.2 ⟨?_, h⟩
      intro y hy
      rcases List.mem_cons.1 hy with rfl | hmem
      · exact le_of_lt hq
      · exact le_trans (List.rel_of_pairwise_cons h hmem) (le_of_lt hq)
    · rw [if_neg hq]
      have h1 := List.pairwise_cons.1 h
      refine List.pairwise_cons.2 ⟨?_, ih h1.2⟩
      intro y hy
      have hy2 : y ∈ p :: qs := (insertDesc_perm p qs).mem_iff.1 hy
      rcases List.mem_cons.1 hy2 with rfl | hmem
      · exact not_lt.1 hq
      · exact h1.1 y hmem

theorem sortByScoreDesc_sorted (l : List (ℕ × ℚ)) :
    (sortByScoreDesc l).Pairwise (fun a b => b.2 ≤ a.2) := by
  induction l with
  | nil => simp [sortByScoreDesc]
  | cons p ps ih => exact insertDesc_sorted ih

theorem mem_topKPositive_pos {scores : ℕ → ℚ} {n k : ℕ} {p : ℕ × ℚ}
    (h : p ∈ topKPositive scores n k) : 0 < p.2 := by
  unfold topKPositive at h
  have h2 := List.mem_filter.1 h
  simpa using h2.2

theorem topKPositive_ne_nil {scores : ℕ → ℚ} {n k i : ℕ} (hk : 1 ≤ k) (hi : i < n)
    (hpos : 0 < scores i) : topKPositive scores n k ≠ [] := by
  unfold topKPositive
  have hmem : (i, scores i) ∈ (List.range n).map (fun j => (j, scores j)) :=
    List.mem_map.2 ⟨i, List.mem_range.2 hi, rfl⟩
  have hmem2 : (i, scores i) ∈
      sortByScoreDesc ((List.range n).map (fun j => (j, scores j))) :=
    mem_sortByScoreDesc.2 hmem
  have hsorted := sortByScoreDesc_sorted ((List.range n).map (fun j => (j, scores j)))
  cases hsort : sortByScoreDesc ((List.range n).map (fun j => (j, scores j))) with
  | nil =>
    rw [hsort] at hmem2
    exact absurd hmem2 (List.not_mem_nil _)
  | cons h t =>
    rw [hsort] at hmem2 hsorted
    have hhead : 0 < h.2 := by
      rcases List.mem_cons.1 hmem2 with heq | hmem3
      · rw [← heq]
        exact hpos
      · exact lt_of_lt_of_le hpos (List.rel_of_pairwise_cons hsorted hmem3)
    cases k with
    | zero => exact absurd hk (by omega)
    | succ k2 =>
      rw [List.take_succ_cons]
      intro hcontra
      have : h ∈ (h :: List.take k2 t).filter (fun p => decide (0 < p.2)) :=
        List.mem_filter.2 ⟨List.mem_cons_self _ _, by simpa using hhead⟩
      rw [hcontra] at this
      exact absurd this (List.not_mem_nil _)

theorem le_foldl_max (ps : List (ℕ × ℚ)) :
    ∀ a : ℚ, a ≤ ps.foldl (fun m q => max m q.2) a := by
  induction ps with
  | nil =>
    intro a
    simp
  | cons q qs ih =>
    intro a
    simp only [List.foldl_cons]
    exact le_trans (le_max_left a q.2) (ih (max a q.2))

theorem mem_le_foldl_max {ps : List (ℕ × ℚ)} {x : ℕ × ℚ} (h : x ∈ ps) :
    ∀ a : ℚ, x.2 ≤ ps.foldl (fun m q => max m q.2) a := by
  induction ps with
  | nil => exact absurd h (List.not_mem_nil x)
  | cons q qs ih =>
    intro a
    rcases List.mem_cons.1 h with rfl | hmem
    · simp only [List.foldl_cons]
      exact le_trans (le_max_right a x.2) (le_foldl_max qs _)
    · exact ih hmem (max a q.2)

theorem mem_le_maxScore {l : List (ℕ × ℚ)} {x : ℕ × ℚ} (h : x ∈ l) :
    x.2 ≤ maxScore l := by
  cases l with
  | nil => exact absurd h (List.not_mem_nil x)
  | cons p ps =>
    unfold maxScore
    rcases List.mem_cons.1 h with rfl | hmem
    · exact le_foldl_max ps x.2
    · exact mem_le_foldl_max hmem p.2

theorem maxScore_pos {l : List (ℕ × ℚ)} (hne : l ≠ [])
    (hpos : ∀ p ∈ l, 0 < p.2) : 0 < maxScore l := by
  cases l with
  | nil => exact absurd rfl hne
  | cons p ps =>
    exact lt_of_lt_of_le (hpos p (List.mem_cons_self _ _))
      (mem_le_maxScore (List.mem_cons_self _ _))

theorem normalize_scores_cons (p : ℕ × ℚ) (ps : List (ℕ × ℚ)) :
    normalize_scores (p :: ps) =
      if maxScore (p :: ps) = 0 then []
      else (p :: ps).map (fun q => (q.1, q.2 / maxScore (p :: ps))) := rfl

theorem mem_normalize_scores_bounds {l : List (ℕ × ℚ)} {x : ℕ × ℚ}
    (hpos : ∀ p ∈ l, 0 ≤ p.2) (hx : x ∈ normalize_scores l) :
    0 ≤ x.2 ∧ x.2 ≤ 1 := by
  cases l with
  | nil => exact absurd hx (List.not_mem_nil x)
  | cons p ps =>
    rw [normalize_scores_cons] at hx
    by_cases hM : maxScore (p :: ps) = 0
    · rw [if_pos hM] at hx
      exact absurd hx (List.not_mem_nil x)
    · rw [if_neg hM] at hx
      rcases List.mem_map.1 hx with ⟨q, hq, rfl⟩
      have h0 : 0 ≤ q.2 := hpos q hq
      have hle : q.2 ≤ maxScore (p :: ps) := mem_le_maxScore hq
      have hMpos : 0 < maxScore (p :: ps) :=
        lt_of_le_of_ne
          (le_trans (hpos p (List.mem_cons_self _ _))
            (mem_le_maxScore (List.mem_cons_self _ _)))
          (Ne.symm hM)
      exact ⟨div_nonneg h0 (le_of_lt hMpos), (div_le_one hMpos).2 hle⟩

theorem lookupScore_mem {m : List (ℕ × ℚ)} {i : ℕ} {v : ℚ}
    (h : m.lookup i = some v) : (i, v) ∈ m := by
  induction m with
  | nil => simp [List.lookup] at h
  | cons p ps ih =>
    obtain ⟨k, w⟩ := p
    by_cases hik : (i == k) = true
    · have hk : i = k := by simpa using hik
      simp only [List.lookup, hik] at h
      have hv : w = v := by simpa using h
      rw [hk, ← hv]
      exact List.mem_cons_self _ _
    · have hik2 : (i == k) = false := by simpa using hik
      simp only [List.lookup, hik2] at h
      exact List.mem_cons_of_mem _ (ih h)

theorem lookupScore_bounds {m : List (ℕ × ℚ)} (i : ℕ)
    (h : ∀ q ∈ m, 0 ≤ q.2 ∧ q.2 ≤ 1) :
    0 ≤ lookupScore m i ∧ lookupScore m i ≤ 1 := by
  unfold lookupScore
  cases hl : m.lookup i with
  | none => simp
  | some v => simpa using h (i, v) (lookupScore_mem hl)

theorem mem_fuseScores {bw cw : ℚ} {bN cN : List (ℕ × ℚ)} {x : ℕ × ℚ}
    (h : x ∈ fuseScores bw cw bN cN) :
    x.2 = bw * lookupScore bN x.1 + cw * lookupScore cN x.1 := by
  unfold fuseScores at h
  rcases List.mem_map.1 h with ⟨i, _, rfl⟩
  rfl

theorem length_filterMap_if {α β : Type} (l : List α) (c : α → Bool) (g : α → β) :
    (l.filterMap (fun a => if c a then some (g a) else none)).length = l.countP c := by
  induction l with
  | nil => rfl
  | cons a as ih =>
    by_cases h : c a = true
    · simp [List.filterMap_cons, h, List.countP_cons, ih]
    · simp [List.filterMap_cons, h, List.countP_cons, ih]

end Vastr

namespace Vastr

/-- C2: for every query, corpus, oracles and filters, and all nonnegative
caller-supplied weights (the spec constrains them to the interval zero to
one), every product record returned by `hybrid_search` carries a fused
`search_score` lying in the closed interval from 0 to
`bm25_weight + cosine_weight`; under the default weights 0.5/0.5 this is the
interval from 0 to 1. -/
theorem hybrid_search_score_bounds (products : ℕ → Product)
    (bm25Oracle : List String → ℕ → ℚ) (cosOracle : String → ℕ → ℚ) (n : ℕ)
    (query : String) (top_k : ℕ) (bw cw : ℚ) (filters : Option Filters)
    (hbw : 0 ≤ bw) (hcw : 0 ≤ cw) :
    ∀ r ∈ hybrid_search products bm25Oracle cosOracle n query top_k bw cw filters,
      0 ≤ r.search_score ∧ r.search_score ≤ bw + cw := by
  intro r hr
  unfold hybrid_search selectResults at hr
  rcases List.mem_filterMap.1 hr with ⟨p, hp, hpr⟩
  have hscore : r.search_score = p.2 := by
    by_cases hacc : acceptProduct products filters p.1 = true
    · rw [if_pos hacc] at hpr
      have := Option.some.inj hpr
      rw [← this]
    · rw [if_neg hacc] at hpr
      exact absurd hpr (Option.noConfusion)
  have hmem : p ∈ queryRanking bm25Oracle cosOracle n query bw cw :=
    List.mem_of_mem_take hp
  unfold queryRanking at hmem
  have hmem2 := mem_sortByScoreDesc.1 hmem
  have hshape := mem_fuseScores hmem2
  have hbN : ∀ q ∈ bm25NormOf bm25Oracle n query, 0 ≤ q.2 ∧ q.2 ≤ 1 := by
    intro q hq
    unfold bm25NormOf at hq
    exact mem_normalize_scores_bounds
      (fun x hx => le_of_lt (mem_topKPositive_pos hx)) hq
  have hcN : ∀ q ∈ cosineNormOf cosOracle n query, 0 ≤ q.2 ∧ q.2 ≤ 1 := by
    intro q hq
    unfold cosineNormOf at hq
    exact mem_normalize_scores_bounds
      (fun x hx => le_of_lt (mem_topKPositive_pos hx)) hq
  have hb := lookupScore_bounds p.1 hbN
  have hc := lookupScore_bounds p.1 hcN
  rw [hscore, hshape]
  constructor
  · exact add_nonneg (mul_nonneg hbw hb.1) (mul_nonneg hcw hc.1)
  · have h1 : bw * lookupScore (bm25NormOf bm25Oracle n query) p.1 ≤ bw :=
      mul_le_of_le_one_right hbw hb.2
    have h2 : cw * lookupScore (cosineNormOf cosOracle n query) p.1 ≤ cw :=
      mul_le_of_le_one_right hcw hc.2
    exact add_le_add h1 h2

/-- Witness for C2 at the default weights 0.5/0.5 on a one-product corpus
scored 1 by both oracles. -/
theorem hybrid_search_score_bounds_witness :
    (0 : ℚ) ≤ 1/2 ∧ (0 : ℚ) ≤ 1/2 ∧
    ∀ r ∈ hybrid_search (fun _ => {}) (fun _ _ => 1) (fun _ _ => 1) 1 "q" 1
        (1/2) (1/2) none,
      0 ≤ r.search_score ∧ r.search_score ≤ 1/2 + 1/2 :=
  ⟨by norm_num, by norm_num,
    hybrid_search_score_bounds (fun _ => {}) (fun _ _ => 1) (fun _ _ => 1) 1 "q" 1
      (1/2) (1/2) none (by norm_num) (by norm_num)⟩

/-- C1 amended: `hybrid_search` walks only the first `top_k` entries of the
fused-score-sorted candidate ranking and returns exactly the candidates
among those first `top_k` that pass the active filters, so the number of
returned products equals the number of accepted candidates within that
truncated prefix (which can be fewer than `top_k` even when `top_k`
candidates of the full ranking pass the filters); with no filters supplied,
`top_k` larger than the number of ranked candidates returns all of them,
i.e. the result length is the minimum of `top_k` and the ranking length. -/
theorem hybrid_search_truncates_before_filtering (products : ℕ → Product)
    (bm25Oracle : List String → ℕ → ℚ) (cosOracle : String → ℕ → ℚ) (n : ℕ)
    (query : String) (top_k : ℕ) (bw cw : ℚ) (filters : Option Filters) :
    (hybrid_search products bm25Oracle cosOracle n query top_k bw cw filters).length
      = ((queryRanking bm25Oracle cosOracle n query bw cw).take top_k).countP
          (fun p => acceptProduct products filters p.1)
    ∧ (filters = none →
        (hybrid_search products bm25Oracle cosOracle n query top_k bw cw filters).length
          = min top_k (queryRanking bm25Oracle cosOracle n query bw cw).length) := by
  constructor
  · unfold hybrid_search selectResults
    exact length_filterMap_if _ _ _
  · intro hf
    subst hf
    unfold hybrid_search selectResults
    rw [length_filterMap_if]
    have hall : ∀ p ∈ (queryRanking bm25Oracle cosOracle n query bw cw).take top_k,
        acceptProduct products none p.1 = true := fun _ _ => rfl
    rw [List.countP_eq_length.2 hall, List.length_take]

/-- Witness for the no-filter consequence of the amended C1 on a concrete
one-product configuration. -/
theorem hybrid_search_truncates_before_filtering_witness :
    (hybrid_search (fun _ => {}) (fun _ _ => 1) (fun _ _ => 1) 1 "q" 3
        (1/2) (1/2) none).length
      = min 3 (queryRanking (fun _ _ => 1) (fun _ _ => 1) 1 "q" (1/2) (1/2)).length :=
  (hybrid_search_truncates_before_filtering (fun _ => {}) (fun _ _ => 1)
    (fun _ _ => 1) 1 "q" 3 (1/2) (1/2) none).2 rfl

end Vastr

namespace Vastr

/-- Counterexample to C1 as stated: with two ranked candidates, `top_k = 1`,
and an availability filter that rejects the top-ranked candidate but accepts
the second, at least `top_k` candidates of the full fused ranking pass the
filters, yet `hybrid_search` returns zero products instead of exactly
`top_k` — the code truncates `sorted_results` to `top_k` entries before
filtering instead of walking the list until `top_k` accepted candidates are
collected. -/
theorem hybrid_search_truncates_before_filtering_cex :
    1 ≤ ((queryRanking (fun _ i => if i = 0 then 2 else 1) (fun _ _ => 0) 2 ""
        (1/2) (1/2)).countP
        (fun p => acceptProduct
          (fun i => if i = 0 then ({ available := some false } : Product)
            else { available := some true })
          (some { available_only := some true }) p.1))
    ∧ (hybrid_search
        (fun i => if i = 0 then ({ available := some false } : Product)
          else { available := some true })
        (fun _ i => if i = 0 then 2 else 1) (fun _ _ => 0) 2 "" 1 (1/2) (1/2)
        (some { available_only := some true })).length = 0 := by
  constructor
  · norm_num [queryRanking, bm25NormOf, cosineNormOf, topKPositive, sortByScoreDesc,
      insertDesc, normalize_scores, maxScore, lookupScore, unionIndices, fuseScores,
      acceptProduct, apply_filters, preprocess_text, strTokens, wordsOf, tokens,
      List.range, List.range.loop, List.lookup, List.countP_cons, List.countP_nil]
    simp
    norm_num
    exact ⟨1, 1/4, Or.inr ⟨rfl, rfl⟩, rfl⟩
  · norm_num [hybrid_search, selectResults, queryRanking, bm25NormOf, cosineNormOf,
      topKPositive, sortByScoreDesc, insertDesc, normalize_scores, maxScore,
      lookupScore, unionIndices, fuseScores, acceptProduct, apply_filters,
      preprocess_text, strTokens, wordsOf, tokens, List.range, List.range.loop,
      List.lookup, List.filterMap_cons]
    simp
    norm_num

/-- C3: the scoring path of `hybrid_search` consumes only the normalized
form of the raw query — for every corpus, oracles, query, weights and
filters its results are identical to the spec-side pipeline instantiated
with no query expansion (the identity expander); `_expand_query` is never
invoked on the scoring path. -/
theorem hybrid_search_no_expansion (products : ℕ → Product)
    (bm25Oracle : List String → ℕ → ℚ) (cosOracle : String → ℕ → ℚ) (n : ℕ)
    (query : String) (top_k : ℕ) (bw cw : ℚ) (filters : Option Filters) :
    hybrid_search products bm25Oracle cosOracle n query top_k bw cw filters
      = hybridSearchWithExpander (fun q => q) products bm25Oracle cosOracle n query
          top_k bw cw filters := rfl

theorem max_div_max (a b : ℚ) {M : ℚ} (hM : 0 < M) :
    max a b / M = max (a / M) (b / M) := by
  rcases le_total a b with h | h
  · rw [max_eq_right h, max_eq_right ((div_le_div_iff_of_pos_right hM).2 h)]
  · rw [max_eq_left h, max_eq_left ((div_le_div_iff_of_pos_right hM).2 h)]

theorem foldl_max_map_div (ps : List (ℕ × ℚ)) {M : ℚ} (hM : 0 < M) :
    ∀ a : ℚ, (ps.map (fun q => (q.1, q.2 / M))).foldl (fun m q => max m q.2) (a / M)
      = (ps.foldl (fun m q => max m q.2) a) / M := by
  induction ps with
  | nil =>
    intro a
    rfl
  | cons q qs ih =>
    intro a
    simp only [List.map_cons, List.foldl_cons]
    rw [show max (a / M) ((q.1, q.2 / M)).2 = max a q.2 / M from
      (max_div_max a q.2 hM).symm, ih]

theorem maxScore_map_div {l : List (ℕ × ℚ)} {M : ℚ} (hM : 0 < M) :
    maxScore (l.map (fun q => (q.1, q.2 / M))) = maxScore l / M := by
  cases l with
  | nil => simp [maxScore]
  | cons p ps =>
    simp only [List.map_cons, maxScore]
    exact foldl_max_map_div ps hM p.2

theorem maxScore_normalize_eq_one {l : List (ℕ × ℚ)} (hne : l ≠ [])
    (hpos : ∀ p ∈ l, 0 < p.2) : maxScore (normalize_scores l) = 1 := by
  cases l with
  | nil => exact absurd rfl hne
  | cons p ps =>
    have hM : 0 < maxScore (p :: ps) := maxScore_pos (by simp) hpos
    rw [normalize_scores_cons, if_neg hM.ne', maxScore_map_div hM, div_self hM.ne']

/-- C4: whenever some product position below the corpus size has a positive
raw score (and the internal candidate count is at least one, as with the
fixed K=100 of the source), the normalized score map built by
`normalize_scores` over the `topKPositive` candidate set attains maximum
exactly 1; an empty candidate set yields an empty normalized map, and any
result list whose maximum raw score is zero also yields the empty map
rather than dividing by zero. -/
theorem normalize_scores_max_one (scores : ℕ → ℚ) (n k : ℕ) (hk : 1 ≤ k) :
    ((∃ i, i < n ∧ 0 < scores i) →
      maxScore (normalize_scores (topKPositive scores n k)) = 1
      ∧ normalize_scores (topKPositive scores n k) ≠ [])
    ∧ (topKPositive scores n k = [] → normalize_scores (topKPositive scores n k) = [])
    ∧ ∀ l : List (ℕ × ℚ), maxScore l = 0 → normalize_scores l = [] := by
  refine ⟨?_, ?_, ?_⟩
  · rintro ⟨i, hi, hpos⟩
    have hne := topKPositive_ne_nil hk hi hpos
    have hposall : ∀ p ∈ topKPositive scores n k, 0 < p.2 :=
      fun p hp => mem_topKPositive_pos hp
    refine ⟨maxScore_normalize_eq_one hne hposall, ?_⟩
    cases htk : topKPositive scores n k with
    | nil => exact absurd htk hne
    | cons p ps =>
      have hM : 0 < maxScore (p :: ps) :=
        maxScore_pos (by simp) (fun q hq => hposall q (htk ▸ hq))
      rw [normalize_scores_cons, if_neg hM.ne']
      simp
  · intro h
    rw [h]
    rfl
  · intro l hM
    cases l with
    | nil => rfl
    | cons p ps => rw [normalize_scores_cons, if_pos hM]

/-- Witness for C4 on a one-product corpus with unit scores. -/
theorem normalize_scores_max_one_witness :
    1 ≤ 1 ∧ maxScore (normalize_scores (topKPositive (fun _ => (1 : ℚ)) 1 1)) = 1 :=
  ⟨le_refl 1,
    ((normalize_scores_max_one (fun _ => 1) 1 1 (le_refl 1)).1
      ⟨0, by norm_num, by norm_num⟩).1⟩

end Vastr

namespace Vastr

theorem foldl_filter_join {α β : Type} (cond : α → Bool) (f : α → List β) :
    ∀ (l : List α) (acc : List β),
      l.foldl (fun acc p => if cond p then acc ++ f p else acc) acc
        = acc ++ ((l.filter cond).map f).join := by
  intro l
  induction l with
  | nil =>
    intro acc
    simp
  | cons p ps ih =>
    intro acc
    by_cases hp : cond p = true
    · simp only [List.foldl_cons, hp, if_true, List.filter_cons_of_pos hp,
        List.map_cons, List.join_cons, ih, List.append_assoc]
    · simp only [List.foldl_cons, hp, Bool.false_eq_true, if_false,
        List.filter_cons_of_neg hp, ih]

/-- C8: for every raw query string, `_expand_query` returns the space-joined
accumulator that starts with the original query and, for each trigger word of
the merged four-table dict that occurs as a substring of the lowercased
query, appends the first 3 synonyms of that trigger's list, all matching
triggers applied non-exclusively in table order. -/
theorem expand_query_characterization (q : String) :
    expand_query q =
      " ".intercalate
        (q :: ((mergedExpansions.filter (fun p => containsSub (pyStrLower q) p.1)).map
          (fun p => p.2.take 3)).join) := by
  unfold expand_query
  rw [foldl_filter_join]
  rfl

/-- C10: the `min_price` and `max_price` filters of `_apply_filters` both
compare against the product's `price_min` field only — the `price_max` field
is never consulted — and a product with no `price_min` field is treated as
price 0 by the min-price test (so any positive `min_price` bound rejects it)
but as positive infinity by the max-price test (so any finite `max_price`
bound rejects it). -/
theorem apply_filters_price_min_only (p : Product) (f : Filters) :
    (∀ x : Option ℚ, apply_filters { p with price_max := x } f = apply_filters p f)
    ∧ (p.price_min = none → ∀ m : ℚ, f.min_price = some m → 0 < m →
        apply_filters p f = false)
    ∧ (p.price_min = none → ∀ m : ℚ, f.max_price = some m →
        apply_filters p f = false) := by
  refine ⟨fun x => rfl, ?_, ?_⟩
  · intro hp m hm hpos
    simp [apply_filters, hp, hm, hpos]
  · intro hp m hm
    simp [apply_filters, hp, hm]

/-- Witness for C10: a product with no `price_min` field is rejected by a
positive min-price bound and by any finite max-price bound. -/
theorem apply_filters_price_min_only_witness :
    apply_filters ({ price_min := none } : Product)
        ({ min_price := some 3 } : Filters) = false
    ∧ apply_filters ({ price_min := none } : Product)
        ({ max_price := some 5 } : Filters) = false :=
  ⟨(apply_filters_price_min_only { price_min := none } { min_price := some 3 }).2.1
      rfl 3 rfl (by norm_num),
   (apply_filters_price_min_only { price_min := none } { max_price := some 5 }).2.2
      rfl 5 rfl⟩

/-- C5, code evidence: building the search indices over an empty corpus does
raise — `BM25Okapi.__init__` computes `num_doc / corpus_size`, a division by
zero for zero products — contradicting the spec requirement that an
empty-corpus index build must not raise. -/
theorem build_search_indices_empty_raises :
    build_search_indices [] = .error "ZeroDivisionError: division by zero" := rfl

end Vastr

namespace Vastr

/-- C6 amended: an unloaded or empty vector store yields the explicit 503
"not ready" failure; with a loaded nonempty store, a model that failed to
initialize — exactly like a failing embedding extraction — yields the
distinct 500 "failed to process image" failure (not the "not ready" one);
and the endpoint always returns one of the two failures or a success, never
a crash, and never any success in the not-ready case. -/
theorem search_by_image_error_paths (st : ImageState)
    (extract : String → Option (List ℚ)) (sims : List ℚ → List (List ℚ) → List ℚ)
    (req : ImageSearchRequest) :
    ((st.embeddings = none ∨ st.productIds = none ∨
        (∃ m, st.embeddings = some m ∧ m.length = 0)) →
      search_by_image st extract sims req
        = .error (503, "Image search not ready - embeddings missing"))
    ∧ (∀ m ids, st.embeddings = some m → st.productIds = some ids →
        m.length ≠ 0 → (st.modelLoaded = false ∨ extract req.image = none) →
        search_by_image st extract sims req
          = .error (500, "Failed to process image"))
    ∧ (search_by_image st extract sims req
        = .error (503, "Image search not ready - embeddings missing")
      ∨ search_by_image st extract sims req
        = .error (500, "Failed to process image")
      ∨ ∃ rs, search_by_image st extract sims req = .ok rs) := by
  refine ⟨?_, ?_, ?_⟩
  · rintro (h | h | ⟨m, hm, hlen⟩)
    · unfold search_by_image
      rw [h]
      cases st.productIds <;> rfl
    · unfold search_by_image
      rw [h]
      cases st.embeddings <;> rfl
    · unfold search_by_image
      rw [hm]
      cases hids : st.productIds with
      | none => rfl
      | some ids => simp [hlen]
  · intro m ids hm hids hlen hfail
    unfold search_by_image
    rw [hm, hids]
    dsimp only
    rw [if_neg hlen]
    unfold get_embedding_from_base64
    rcases hfail with h | h
    · simp [h]
    · by_cases hml : st.modelLoaded = false
      · simp [hml]
      · simp [hml, h]
  · unfold search_by_image
    cases hm : st.embeddings with
    | none => cases st.productIds <;> exact Or.inl rfl
    | some m =>
      cases hids : st.productIds with
      | none => exact Or.inl rfl
      | some ids =>
        dsimp only
        by_cases hlen : m.length = 0
        · rw [if_pos hlen]
          exact Or.inl rfl
        · rw [if_neg hlen]
          cases he : get_embedding_from_base64 st extract req.image with
          | none => exact Or.inr (Or.inl rfl)
          | some emb => exact Or.inr (Or.inr ⟨_, rfl⟩)

/-- Witness for the amended C6: with nothing loaded the endpoint returns the
503 not-ready failure, and with a loaded store but no model it returns the
500 failure. -/
theorem search_by_image_error_paths_witness :
    search_by_image ⟨true, none, none⟩ (fun _ => none) (fun _ _ => []) ⟨"img", 24⟩
      = .error (503, "Image search not ready - embeddings missing")
    ∧ search_by_image ⟨false, some [[1]], some ["p"]⟩ (fun _ => some [1])
        (fun _ _ => []) ⟨"img", 24⟩
      = .error (500, "Failed to process image") :=
  ⟨(search_by_image_error_paths ⟨true, none, none⟩ (fun _ => none) (fun _ _ => [])
      ⟨"img", 24⟩).1 (Or.inl rfl),
   (search_by_image_error_paths ⟨false, some [[1]], some ["p"]⟩ (fun _ => some [1])
      (fun _ _ => []) ⟨"img", 24⟩).2.1 [[1]] ["p"] rfl rfl (by simp) (Or.inl rfl)⟩

/-- Counterexample to C6 as stated: with a loaded, nonempty vector store but
a model that failed to initialize (and an otherwise healthy image), the
endpoint returns the 500 "Failed to process image" failure, not the 503
"not ready" failure the claim groups model-initialization failure under. -/
theorem search_by_image_model_missing_cex :
    search_by_image ⟨false, some [[1]], some ["p"]⟩ (fun _ => some [1])
        (fun _ _ => []) ⟨"img", 24⟩
      = .error (500, "Failed to process image")
    ∧ ((500 : ℕ), "Failed to process image")
        ≠ ((503 : ℕ), "Image search not ready - embeddings missing") := by
  constructor
  · rfl
  · simp

end Vastr

namespace Vastr

theorem sumSq_nonneg (r : List ℝ) : 0 ≤ sumSq r := by
  unfold sumSq
  apply List.sum_nonneg
  intro x hx
  rcases List.mem_map.1 hx with ⟨y, _, rfl⟩
  exact sq_nonneg y

theorem sumSq_map_div (r : List ℝ) (N : ℝ) :
    sumSq (r.map (fun x => x / N)) = sumSq r / N ^ 2 := by
  induction r with
  | nil => simp [sumSq]
  | cons x xs ih =>
    simp only [List.map_cons, sumSq, List.sum_cons] at ih ⊢
    rw [ih, div_pow, div_add_div_same]

theorem rowNorm_nonneg (r : List ℝ) : 0 ≤ rowNorm r :=
  Real.sqrt_nonneg _

/-- C7 amended: after the defensive load-time normalization of
`load_embeddings`, every row whose original L2 norm is at least the clip
floor 1e-10 has L2 norm exactly 1; rows below the floor (in particular
all-zero rows) are merely divided by 1e-10 and keep their deficient norm, so
not literally every stored row is unit-normalized. -/
theorem clipNormalizeRow_unit_norm (r : List ℝ) (h : (1e-10 : ℝ) ≤ rowNorm r) :
    rowNorm (clipNormalizeRow r) = 1 := by
  have hpos : 0 < rowNorm r := lt_of_lt_of_le (by norm_num) h
  have hmax : max (rowNorm r) (1e-10 : ℝ) = rowNorm r := max_eq_left h
  unfold clipNormalizeRow
  rw [hmax]
  have h1 : rowNorm (r.map (fun x => x / rowNorm r))
      = Real.sqrt (sumSq r / (rowNorm r) ^ 2) := by
    rw [rowNorm, sumSq_map_div]
  rw [h1, Real.sqrt_div (sumSq_nonneg r), Real.sqrt_sq hpos.le]
  rw [show Real.sqrt (sumSq r) = rowNorm r from rfl]
  exact div_self hpos.ne'

/-- Witness for the amended C7 on the row (3, 4), whose norm 5 exceeds the
clip floor. -/
theorem clipNormalizeRow_unit_norm_witness :
    (1e-10 : ℝ) ≤ rowNorm [(3 : ℝ), 4]
    ∧ rowNorm (clipNormalizeRow [(3 : ℝ), 4]) = 1 := by
  have h25 : sumSq [(3 : ℝ), 4] = 25 := by
    unfold sumSq
    norm_num
  have h5 : rowNorm [(3 : ℝ), 4] = 5 := by
    unfold rowNorm
    rw [h25, show (25 : ℝ) = 5 ^ 2 by norm_num, Real.sqrt_sq (by norm_num)]
  have hle : (1e-10 : ℝ) ≤ rowNorm [(3 : ℝ), 4] := by
    rw [h5]
    norm_num
  exact ⟨hle, clipNormalizeRow_unit_norm _ hle⟩

/-- Counterexample to C7 as stated: loading a matrix containing an all-zero
row leaves that row all-zero (its clipped norm is the floor 1e-10, and zero
divided by the floor is zero), so its L2 norm is 0, not 1 — not every row of
the stored matrix has unit norm. -/
theorem normalizeEmbeddingRows_zero_row_cex :
    ¬ (∀ r ∈ normalizeEmbeddingRows [[(0 : ℝ)]], rowNorm r = 1) := by
  intro h
  have hrow : clipNormalizeRow [(0 : ℝ)] = [0] := by
    unfold clipNormalizeRow
    simp
  have hnorm : rowNorm [(0 : ℝ)] = 0 := by
    unfold rowNorm sumSq
    simp
  have h1 := h [(0 : ℝ)] (by
    rw [show normalizeEmbeddingRows [[(0 : ℝ)]] = [clipNormalizeRow [(0 : ℝ)]] from rfl,
      hrow]
    exact List.mem_cons_self _ _)
  rw [hnorm] at h1
  exact absurd h1 (by norm_num)

end Vastr
